import Mathlib

/-!
Shallow embedding of the ILMM probabilistic-programming model
(`oilmm/ilmm.py`): symbolic Gaussian-process expressions, the mixing-model
construction, missing-data handling, log-density, conditioning, prediction
and sampling.  Scalars are modelled by `ℚ` (an executable stand-in for the
real-valued tensors of the source), missing entries (`NaN`) by `Option`,
and Python list indexing, which raises `IndexError` out of range, by
`Option`-returning operations (`none` models a raised error).  The external
Gaussian-process graph engine (stheno) is out of scope per the spec and is
modelled by abstract capability functions passed as arguments: a joint
log-density on the set of atomic observations, a per-process marginal
summary, and a joint sampler.
-/

/-- Covariance kernels: a user-supplied kernel (identified by its index) or
a scaled white-noise kernel, modelling `c * Delta()`. -/
inductive Kernel where
  | base (idx : Nat)
  | scaledDelta (c : ℚ)
deriving Repr, DecidableEq

/-- Symbolic process expressions over a computation graph (graphs are
identified by a natural number).  `gp` is a process created from a kernel
(`GP(k, graph=graph)`, with `idx` recording the creation site so distinct
creations are distinct processes); `latentNoise` and `obsNoise` are the
fresh white-noise processes `GP(noises_latent[i] * Delta(), graph=graph)`
and `GP(noise_obs * Delta(), graph=graph)` created during construction;
`const` is a scalar used as a process (the Python `0` initialising the
accumulator of `_matmul`); `add` and `smul` are process sum and scaling;
`cond` is the posterior `x | obs` of a process given a joint observation
set, an observation being an (evaluated process, input point, value)
atom. -/
inductive ProcExpr where
  | gp (graph : Nat) (k : Kernel) (idx : Nat)
  | latentNoise (graph : Nat) (variance : ℚ) (idx : Nat)
  | obsNoise (graph : Nat) (variance : ℚ) (idx : Nat)
  | const (c : ℚ)
  | add (p q : ProcExpr)
  | smul (c : ℚ) (p : ProcExpr)
  | cond (p : ProcExpr) (obs : List (ProcExpr × ℚ × ℚ))

/-- An atomic observation: an evaluated process, the input location, and
the observed value. -/
abbrev ObsAtom := ProcExpr × ℚ × ℚ

/-- Pathwise denotation of the linear structure of a process expression:
`base` assigns a sample-path value to every primitive (graph-created or
conditioned) process, and sums, scalings and constants are interpreted
pointwise.  Two expressions with the same denotation under every `base`
have the same distribution. -/
def denote (base : ProcExpr → ℚ) : ProcExpr → ℚ
  | .const c => c
  | .add p q => denote base p + denote base q
  | .smul c p => c * denote base p
  | p => base p

/-- An abstract matrix, as the source's `AbstractMatrix`: a shape together
with an entry function (the source only reads entries inside the shape
bounds). -/
structure Mat where
  rows : Nat
  cols : Nat
  entry : Nat → Nat → ℚ

/-- Effectful map over a list in the `Option` monad: the embedding of a
Python list comprehension whose body may raise (`none` aborts the whole
comprehension, as an exception would). -/
def optMap (f : α → Option β) : List α → Option (List β)
  | [] => some []
  | a :: l => (f a).bind fun b => (optMap f l).map fun bs => b :: bs

/-- Accumulator loop of one row of `_matmul`: for each column index `j` of
the remaining list, look up `x[j]` (raising out of range) and add
`a[i, j] * x[j]` to the accumulator, exactly as
`out[i] += a[i, j] * x[j]`. -/
def dotAcc (a : Mat) (x : List ProcExpr) (i : Nat) (acc : ProcExpr) :
    List Nat → Option ProcExpr
  | [] => some acc
  | j :: js =>
      (x.get? j).bind fun xj =>
        dotAcc a x i (ProcExpr.add acc (ProcExpr.smul (a.entry i j) xj)) js

/-- Row `i` of `_matmul a x`: the fold of `out[i] += a[i, j] * x[j]` over
`j in range(m)` starting from the Python scalar `0`. -/
def dotRow (a : Mat) (x : List ProcExpr) (i : Nat) : Option ProcExpr :=
  dotAcc a x i (ProcExpr.const 0) (List.range a.cols)

/-- The source's `_matmul(a, x)`: `out = [0] * n`, then
`out[i] += a[i, j] * x[j]` for `i in range(n)`, `j in range(m)` with
`n, m = B.shape(a)`.  Indexing `x[j]` out of range raises, modelled by
`none`. -/
def _matmul (a : Mat) (x : List ProcExpr) : Option (List ProcExpr) :=
  optMap (fun i => dotRow a x i) (List.range a.rows)

/-- Boolean-mask selection, the embedding of numpy boolean indexing
`l[mask]`: keep the elements whose mask entry is `true`, in order. -/
def maskSelect (l : List α) (mask : List Bool) : List α :=
  (l.zip mask).filterMap fun ab => if ab.2 then some ab.1 else none

/-- Column `i` of the observation matrix `y` (`y[:, i]`); rows are lists of
optional values, a `none` entry modelling `NaN`. -/
def colOf (y : List (List (Option ℚ))) (i : Nat) : List (Option ℚ) :=
  y.map fun r => r.getD i none

/-- The source's `_per_output(x, y)`: for each output column
`i in range(p)` with `p = B.shape(y)[1]`, take `yi = y[:, i]`, the
availability mask `~B.isnan(yi)`, and yield
`(x[available], i, yi[available])`.  The generator is embedded as the list
of yielded triples (present values are unwrapped from `Option`). -/
def _per_output (x : List ℚ) (y : List (List (Option ℚ))) :
    List (List ℚ × Nat × List ℚ) :=
  (List.range (y.headD []).length).map fun i =>
    let yi := colOf y i
    let available := yi.map fun v => !v.isNone
    (maskSelect x available, i, (maskSelect yi available).reduceOption)

/-- `[x + GP(noises_latent[i] * Delta(), graph=graph) for i, x in
enumerate(xs)]` starting the enumeration at `i`; looking up
`noises_latent[i]` out of range raises, modelled by `none`. -/
def addLatentNoise (graph : Nat) (noises_latent : List ℚ) :
    Nat → List ProcExpr → Option (List ProcExpr)
  | _, [] => some []
  | i, x :: xs =>
      (noises_latent.get? i).bind fun v =>
        (addLatentNoise graph noises_latent (i + 1) xs).map fun rest =>
          ProcExpr.add x (ProcExpr.latentNoise graph v i) :: rest

/-- `[f + GP(noise_obs * Delta(), graph=graph) for f in fs_noisy]`; the
counter indexes the fresh white-noise process created at each element. -/
def addObsNoise (graph : Nat) (noise_obs : ℚ) :
    Nat → List ProcExpr → List ProcExpr
  | _, [] => []
  | j, f :: fs =>
      ProcExpr.add f (ProcExpr.obsNoise graph noise_obs j) ::
        addObsNoise graph noise_obs (j + 1) fs

/-- `[GP(k, graph=graph) for k in kernels]`; the counter indexes the
creation site of each latent process. -/
def mkLatents (graph : Nat) : Nat → List Kernel → List ProcExpr
  | _, [] => []
  | i, k :: ks => ProcExpr.gp graph k i :: mkLatents graph (i + 1) ks

/-- The ILMM model state: the shared graph, the latent processes `xs`, the
mixing matrix `h`, the observation noise, the latent noises, the noiseless
output processes `fs` and the noisy output processes `ys`, exactly the
attributes stored by `ILMMPP.__init__`. -/
structure ILMMPP where
  graph : Nat
  xs : List ProcExpr
  h : Mat
  noise_obs : ℚ
  noises_latent : List ℚ
  fs : List ProcExpr
  ys : List ProcExpr

/-- The graph-and-processes constructor overload of `ILMMPP.__init__`:
stores the fields, builds the noisy latent processes, the noiseless
observed processes `fs = _matmul(h, xs)` and the observed processes
`ys = [f + GP(noise_obs * Delta(), graph) for f in _matmul(h, xs_noisy)]`.
A raised `IndexError` anywhere is modelled by `none`. -/
def ILMMPP.initGraph (graph : Nat) (xs : List ProcExpr) (h : Mat)
    (noise_obs : ℚ) (noises_latent : List ℚ) : Option ILMMPP := do
  let xs_noisy ← addLatentNoise graph noises_latent 0 xs
  let fs ← _matmul h xs
  let fs_noisy ← _matmul h xs_noisy
  some ⟨graph, xs, h, noise_obs, noises_latent, fs,
        addObsNoise graph noise_obs 0 fs_noisy⟩

/-- The kernels constructor overload of `ILMMPP.__init__`: creates the
latent processes from the kernels in a fresh graph (`Graph()` allocates a
fresh graph, modelled by the caller-supplied identifier) and delegates to
the graph-and-processes overload. -/
def ILMMPP.initKernels (graph : Nat) (kernels : List Kernel) (h : Mat)
    (noise_obs : ℚ) (noises_latent : List ℚ) : Option ILMMPP :=
  ILMMPP.initGraph graph (mkLatents graph 0 kernels) h noise_obs noises_latent

/-- Flattening of an observation list into atomic observations: the joint
observation set `Obs(*pairs)` of a list of pairs `(ys[i](xi), vi)` is
determined by the atoms `(ys[i], point, value)` it contains; an evaluated
process at `k` points with `k` values contributes `k` atoms. -/
def flattenObs (l : List (ProcExpr × List ℚ × List ℚ)) : List ObsAtom :=
  l.flatMap fun t => (t.2.1.zip t.2.2).map fun av => (t.1, av.1, av.2)

/-- The observation list `[(self.ys[i](x), y) for x, i, y in
_per_output(x, y)]` shared by `logpdf` and `condition`; indexing
`self.ys[i]` out of range raises, modelled by `none`. -/
def ILMMPP.obsList (m : ILMMPP) (x : List ℚ) (y : List (List (Option ℚ))) :
    Option (List (ProcExpr × List ℚ × List ℚ)) :=
  optMap (fun t => (m.ys.get? t.2.1).map fun P => (P, t.1, t.2.2))
    (_per_output x y)

/-- `ILMMPP.logpdf(x, y)`: build the joint observation set and return
`self.graph.logpdf(obs)`.  The graph engine's joint log-density is an
external capability `L`, a function of the (unordered) set of atomic
observations, per the spec's external-interface contract. -/
def ILMMPP.logpdf (L : Multiset ObsAtom → ℚ) (m : ILMMPP) (x : List ℚ)
    (y : List (List (Option ℚ))) : Option ℚ :=
  (m.obsList x y).map fun l => L ↑(flattenObs l)

/-- `ILMMPP.condition(x, y)`: build the same joint observation set and
return `ILMMPP(self.graph, [x | obs for x in self.xs], self.h,
self.noise_obs, self.noises_latent)`. -/
def ILMMPP.condition (m : ILMMPP) (x : List ℚ)
    (y : List (List (Option ℚ))) : Option ILMMPP :=
  (m.obsList x y).bind fun l =>
    ILMMPP.initGraph m.graph
      (m.xs.map fun q => ProcExpr.cond q (flattenObs l))
      m.h m.noise_obs m.noises_latent

/-- `B.stack(*cols, axis=1)` (and `B.concat(*cols, axis=1)` for column
vectors) on equal-length vectors: the matrix, as a list of rows, whose
entry at row `r`, column `j` is `cols[j][r]`. -/
def stackAxis1 (cols : List (List ℚ)) : List (List ℚ) :=
  (List.range (cols.headD []).length).map fun r => cols.map fun c => c.getD r 0

/-- `ILMMPP.predict(x, latent=False)`: select `fs` or `ys`, compute each
process's marginals at `x` through the external capability `M` (returning
the means, lower and upper 95% central credible bounds), unzip and stack.
Unpacking `zip(*...)` of an empty list raises, modelled by `none`. -/
def ILMMPP.predict (M : ProcExpr → List ℚ → List ℚ × List ℚ × List ℚ)
    (m : ILMMPP) (x : List ℚ) (latent : Bool := false) :
    Option (List (List ℚ) × List (List ℚ) × List (List ℚ)) :=
  let ps := if latent then m.fs else m.ys
  if ps.isEmpty then none
  else
    let margs := ps.map fun p => M p x
    some (stackAxis1 (margs.map fun t => t.1),
          stackAxis1 (margs.map fun t => t.2.1),
          stackAxis1 (margs.map fun t => t.2.2))

/-- `ILMMPP.sample(x, latent=False)`: select `fs` or `ys`, draw one joint
sample of all selected processes evaluated at `x` through a single call of
the external joint-sampling capability `S` (returning one column per
process), and concatenate the columns.  `B.concat` of an empty tuple
raises, modelled by `none`. -/
def ILMMPP.sample (S : List (ProcExpr × List ℚ) → List (List ℚ))
    (m : ILMMPP) (x : List ℚ) (latent : Bool := false) :
    Option (List (List ℚ)) :=
  let ps := if latent then m.fs else m.ys
  if ps.isEmpty then none
  else some (stackAxis1 (S (ps.map fun p => (p, x))))

/-- Modelled from the spec: the variant of `_matmul` that omits
zero-weighted terms from the accumulated sum, the optimization the spec
allows for the linear-combination helper. -/
def dotAccSkipZero (a : Mat) (x : List ProcExpr) (i : Nat) (acc : ProcExpr) :
    List Nat → Option ProcExpr
  | [] => some acc
  | j :: js =>
      (x.get? j).bind fun xj =>
        dotAccSkipZero a x i
          (if a.entry i j = 0 then acc
           else ProcExpr.add acc (ProcExpr.smul (a.entry i j) xj)) js

/-- Modelled from the spec: `_matmul` with zero-weighted terms omitted. -/
def _matmulSkipZero (a : Mat) (x : List ProcExpr) : Option (List ProcExpr) :=
  optMap (fun i => dotAccSkipZero a x i (ProcExpr.const 0) (List.range a.cols))
    (List.range a.rows)

/-- Modelled from the spec: the log-density obtained when output column `i`
is excluded from consideration entirely, i.e. the same pipeline as
`logpdf` but with the per-output triple of column `i` dropped. -/
def ILMMPP.logpdfWithoutColumn (L : Multiset ObsAtom → ℚ) (m : ILMMPP)
    (i : Nat) (x : List ℚ) (y : List (List (Option ℚ))) : Option ℚ :=
  (optMap (fun t => (m.ys.get? t.2.1).map fun P => (P, t.1, t.2.2))
      ((_per_output x y).filter fun t => t.2.1 != i)).map
    fun l => L ↑(flattenObs l)

/-- A trivial model, used only as an unreachable default value. -/
def trivModel : ILMMPP := ⟨0, [], ⟨0, 0, fun _ _ => 0⟩, 0, [], [], []⟩

/-- The triple yielded by `_per_output` for one output column, named so
that `_per_output x y` can be rewritten as a map over column indices. -/
def perOutTriple (x : List ℚ) (y : List (List (Option ℚ))) (i : Nat) :
    List ℚ × Nat × List ℚ :=
  let yi := colOf y i
  let available := yi.map fun v => !v.isNone
  (maskSelect x available, i, (maskSelect yi available).reduceOption)

/-- A concrete one-by-one mixing matrix used by witnesses. -/
def wMat : Mat := ⟨1, 1, fun _ _ => 1⟩

/-- A concrete one-output, one-latent model used by witnesses. -/
def wModel : ILMMPP :=
  (ILMMPP.initKernels 0 [Kernel.base 0] wMat 0 [0]).getD trivModel

/-! ### Helper lemmas about the embedding -/

theorem denote_const (base : ProcExpr → ℚ) (c : ℚ) :
    denote base (ProcExpr.const c) = c := rfl

theorem denote_add (base : ProcExpr → ℚ) (p q : ProcExpr) :
    denote base (ProcExpr.add p q) = denote base p + denote base q := rfl

theorem denote_smul (base : ProcExpr → ℚ) (c : ℚ) (p : ProcExpr) :
    denote base (ProcExpr.smul c p) = c * denote base p := rfl

theorem optMap_congr {α β : Type} {f : α → Option β} {g : α → β} :
    ∀ {l : List α}, (∀ a ∈ l, f a = some (g a)) → optMap f l = some (l.map g)
  | [], _ => rfl
  | a :: l, h => by
      have ha := h a (List.mem_cons_self a l)
      have hl := optMap_congr (fun b hb => h b (List.mem_cons_of_mem a hb))
      simp [optMap, ha, hl]

theorem optMap_none {α β : Type} {f : α → Option β} :
    ∀ {l : List α} {a : α}, a ∈ l → f a = none → optMap f l = none
  | b :: l, a, ha, hfa => by
      rcases List.mem_cons.mp ha with h | h
      · subst h; simp [optMap, hfa]
      · have hl := optMap_none h hfa
        simp [optMap, hl]

theorem get?_eq_some_getD {α : Type} {l : List α} {j : Nat} (h : j < l.length)
    (d : α) : l.get? j = some (l.getD j d) := by
  rw [List.getD_eq_get?]
  cases hg : l.get? j with
  | none =>
      exact absurd (List.get?_eq_none.mp hg) (Nat.not_le.mpr h)
  | some b => rfl

theorem get?_eq_none_of_le {α : Type} {l : List α} {j : Nat}
    (h : l.length ≤ j) : l.get? j = none :=
  List.get?_eq_none.mpr h

theorem range_map_getD {α : Type} {n j : Nat} (h : j < n) (g : Nat → α)
    (d : α) : ((List.range n).map g).getD j d = g j := by
  rw [List.getD_eq_get?, List.get?_map, List.get?_range h]
  rfl

theorem getD_map_lt {α β : Type} {l : List α} {j : Nat} (h : j < l.length)
    (f : α → β) (d : β) (d' : α) : (l.map f).getD j d = f (l.getD j d') := by
  rw [List.getD_eq_get?, List.get?_map, get?_eq_some_getD h d']
  rfl

theorem dotAcc_some {a : Mat} {x : List ProcExpr} {i : Nat} :
    ∀ {js : List Nat}, (∀ j ∈ js, j < x.length) → ∀ acc,
      ∃ s, dotAcc a x i acc js = some s ∧
        ∀ base, denote base s =
          denote base acc +
            ((js.map fun j =>
              a.entry i j * denote base (x.getD j (.const 0))).sum)
  | [], _, acc => ⟨acc, rfl, fun base => by simp⟩
  | j :: js, hjs, acc => by
      have hj : j < x.length := hjs j (List.mem_cons_self j js)
      have hget := get?_eq_some_getD hj (ProcExpr.const 0)
      obtain ⟨s, hs, hd⟩ :=
        @dotAcc_some a x i js (fun b hb => hjs b (List.mem_cons_of_mem j hb))
          (ProcExpr.add acc (ProcExpr.smul (a.entry i j) (x.getD j (.const 0))))
      refine ⟨s, ?_, fun base => ?_⟩
      · show (x.get? j).bind _ = some s
        rw [hget]
        exact hs
      · rw [hd base]
        rw [denote_add, denote_smul, List.map_cons, List.sum_cons]
        ring

theorem dotAcc_none {a : Mat} {x : List ProcExpr} {i : Nat} :
    ∀ {js : List Nat}, (∃ j ∈ js, x.length ≤ j) → ∀ acc,
      dotAcc a x i acc js = none
  | j :: js, hex, acc => by
      rcases hex with ⟨j', hj', hge⟩
      rcases List.mem_cons.mp hj' with h | h
      · subst h
        show (x.get? j').bind _ = none
        rw [get?_eq_none_of_le hge]
        rfl
      · cases hget : x.get? j with
        | none =>
            show (x.get? j).bind _ = none
            rw [hget]
            rfl
        | some xj =>
            have hrec := @dotAcc_none a x i js ⟨j', h, hge⟩
              (ProcExpr.add acc (ProcExpr.smul (a.entry i j) xj))
            show (x.get? j).bind _ = none
            rw [hget]
            exact hrec

theorem dotAccSkipZero_some {a : Mat} {x : List ProcExpr} {i : Nat} :
    ∀ {js : List Nat}, (∀ j ∈ js, j < x.length) → ∀ acc,
      ∃ s, dotAccSkipZero a x i acc js = some s ∧
        ∀ base, denote base s =
          denote base acc +
            ((js.map fun j =>
              a.entry i j * denote base (x.getD j (.const 0))).sum)
  | [], _, acc => ⟨acc, rfl, fun base => by simp⟩
  | j :: js, hjs, acc => by
      have hj : j < x.length := hjs j (List.mem_cons_self j js)
      have hget := get?_eq_some_getD hj (ProcExpr.const 0)
      by_cases hz : a.entry i j = 0
      · obtain ⟨s, hs, hd⟩ :=
          @dotAccSkipZero_some a x i js
            (fun b hb => hjs b (List.mem_cons_of_mem j hb)) acc
        refine ⟨s, ?_, fun base => ?_⟩
        · show (x.get? j).bind _ = some s
          rw [hget]
          simpa [hz] using hs
        · rw [hd base]
          rw [List.map_cons, List.sum_cons, hz]
          ring
      · obtain ⟨s, hs, hd⟩ :=
          @dotAccSkipZero_some a x i js
            (fun b hb => hjs b (List.mem_cons_of_mem j hb))
            (ProcExpr.add acc
              (ProcExpr.smul (a.entry i j) (x.getD j (.const 0))))
        refine ⟨s, ?_, fun base => ?_⟩
        · show (x.get? j).bind _ = some s
          rw [hget]
          simpa [hz] using hs
        · rw [hd base]
          rw [denote_add, denote_smul, List.map_cons, List.sum_cons]
          ring

theorem _matmul_some {a : Mat} {x : List ProcExpr} (hc : a.cols ≤ x.length) :
    ∃ out, _matmul a x = some out ∧ out.length = a.rows ∧
      ∀ j, j < a.rows → ∀ base,
        denote base (out.getD j (.const 0)) =
          ((List.range a.cols).map fun i =>
            a.entry j i * denote base (x.getD i (.const 0))).sum := by
  have hrow : ∀ i, ∃ s, dotRow a x i = some s ∧
      ∀ base, denote base s =
        ((List.range a.cols).map fun i2 =>
          a.entry i i2 * denote base (x.getD i2 (.const 0))).sum := by
    intro i
    obtain ⟨s, hs, hd⟩ :=
      @dotAcc_some a x i (List.range a.cols)
        (fun j hj => Nat.lt_of_lt_of_le (List.mem_range.mp hj) hc)
        (ProcExpr.const 0)
    refine ⟨s, hs, fun base => ?_⟩
    rw [hd base, denote_const, zero_add]
  refine ⟨(List.range a.rows).map fun i => (dotRow a x i).getD (.const 0),
    ?_, by simp, ?_⟩
  · apply optMap_congr
    intro i _
    obtain ⟨s, hs, _⟩ := hrow i
    rw [hs]
    rfl
  · intro j hj base
    rw [range_map_getD hj]
    obtain ⟨s, hs, hd⟩ := hrow j
    rw [hs]
    exact hd base

theorem _matmul_none {a : Mat} {x : List ProcExpr} (hc : x.length < a.cols)
    (hr : 0 < a.rows) : _matmul a x = none := by
  apply optMap_none (List.mem_range.mpr hr)
  exact @dotAcc_none a x 0 (List.range a.cols)
    ⟨x.length, List.mem_range.mpr hc, Nat.le_refl _⟩ (ProcExpr.const 0)

theorem _matmulSkipZero_some {a : Mat} {x : List ProcExpr}
    (hc : a.cols ≤ x.length) :
    ∃ out, _matmulSkipZero a x = some out ∧ out.length = a.rows ∧
      ∀ j, j < a.rows → ∀ base,
        denote base (out.getD j (.const 0)) =
          ((List.range a.cols).map fun i =>
            a.entry j i * denote base (x.getD i (.const 0))).sum := by
  have hrow : ∀ i, ∃ s,
      dotAccSkipZero a x i (ProcExpr.const 0) (List.range a.cols) = some s ∧
      ∀ base, denote base s =
        ((List.range a.cols).map fun i2 =>
          a.entry i i2 * denote base (x.getD i2 (.const 0))).sum := by
    intro i
    obtain ⟨s, hs, hd⟩ :=
      @dotAccSkipZero_some a x i (List.range a.cols)
        (fun j hj => Nat.lt_of_lt_of_le (List.mem_range.mp hj) hc)
        (ProcExpr.const 0)
    refine ⟨s, hs, fun base => ?_⟩
    rw [hd base, denote_const, zero_add]
  refine ⟨(List.range a.rows).map fun i =>
      (dotAccSkipZero a x i (ProcExpr.const 0) (List.range a.cols)).getD
        (.const 0), ?_, by simp, ?_⟩
  · apply optMap_congr
    intro i _
    obtain ⟨s, hs, _⟩ := hrow i
    rw [hs]
    rfl
  · intro j hj base
    rw [range_map_getD hj]
    obtain ⟨s, hs, hd⟩ := hrow j
    rw [hs]
    exact hd base

theorem mkLatents_length (g : Nat) :
    ∀ (i : Nat) (ks : List Kernel), (mkLatents g i ks).length = ks.length
  | _, [] => rfl
  | i, _ :: ks => by simp [mkLatents, mkLatents_length g (i + 1) ks]

theorem addObsNoise_length (g : Nat) (no : ℚ) :
    ∀ (j : Nat) (fs : List ProcExpr),
      (addObsNoise g no j fs).length = fs.length
  | _, [] => rfl
  | j, _ :: fs => by simp [addObsNoise, addObsNoise_length g no (j + 1) fs]

theorem addLatentNoise_some {g : Nat} {nl : List ℚ} :
    ∀ {xs : List ProcExpr} {i : Nat}, i + xs.length ≤ nl.length →
      ∃ r, addLatentNoise g nl i xs = some r ∧ r.length = xs.length
  | [], _, _ => ⟨[], rfl, rfl⟩
  | x :: xs, i, hle => by
      have hi : i < nl.length := by
        have := hle
        simp [List.length_cons] at this
        omega
      obtain ⟨r, hr, hlen⟩ :=
        @addLatentNoise_some g nl xs (i + 1) (by simp at hle ⊢; omega)
      refine ⟨ProcExpr.add x (ProcExpr.latentNoise g (nl.getD i 0) i) :: r,
        ?_, by simp [hlen]⟩
      show (nl.get? i).bind _ = _
      rw [get?_eq_some_getD hi 0]
      simp [hr]

theorem addLatentNoise_zero_none {g : Nat} {nl : List ℚ} :
    ∀ {xs : List ProcExpr} {i : Nat}, nl.length < i + xs.length →
      0 < xs.length → addLatentNoise g nl i xs = none
  | x :: xs, i, hlt, _ => by
      rcases Nat.lt_or_ge i nl.length with hi | hi
      · have hrec : addLatentNoise g nl (i + 1) xs = none := by
          apply addLatentNoise_zero_none (by simp at hlt ⊢; omega)
          simp at hlt
          omega
        show (nl.get? i).bind _ = _
        rw [get?_eq_some_getD hi 0]
        simp [hrec]
      · show (nl.get? i).bind _ = _
        rw [get?_eq_none_of_le hi]
        rfl

theorem initGraph_some {g : Nat} {xs : List ProcExpr} {h : Mat} {no : ℚ}
    {nl : List ℚ} (hc : h.cols ≤ xs.length) (hn : xs.length ≤ nl.length) :
    ∃ m, ILMMPP.initGraph g xs h no nl = some m ∧
      m.graph = g ∧ m.xs = xs ∧ m.h = h ∧ m.noise_obs = no ∧
      m.noises_latent = nl ∧ m.fs.length = h.rows ∧ m.ys.length = h.rows := by
  obtain ⟨xsn, hxsn, hxsnlen⟩ := @addLatentNoise_some g nl xs 0 (by simpa)
  obtain ⟨fs, hfs, hfslen, _⟩ := _matmul_some hc
  obtain ⟨fsn, hfsn, hfsnlen, _⟩ :=
    @_matmul_some h xsn (by rw [hxsnlen]; exact hc)
  refine ⟨⟨g, xs, h, no, nl, fs, addObsNoise g no 0 fsn⟩, ?_,
    rfl, rfl, rfl, rfl, rfl, hfslen, by simp [addObsNoise_length, hfsnlen]⟩
  simp [ILMMPP.initGraph, hxsn, hfs, hfsn]

theorem initGraph_none {g : Nat} {xs : List ProcExpr} {h : Mat} {no : ℚ}
    {nl : List ℚ}
    (hfail : nl.length < xs.length ∨ (xs.length < h.cols ∧ 0 < h.rows)) :
    ILMMPP.initGraph g xs h no nl = none := by
  rcases hfail with hlt | ⟨hcols, hrows⟩
  · have : addLatentNoise g nl 0 xs = none :=
      addLatentNoise_zero_none (by simpa) (Nat.lt_of_le_of_lt (Nat.zero_le _) hlt)
    rw [ILMMPP.initGraph, this]
    rfl
  · rcases Nat.lt_or_ge nl.length xs.length with hlt | hge
    · have : addLatentNoise g nl 0 xs = none :=
        addLatentNoise_zero_none (by simpa)
          (Nat.lt_of_le_of_lt (Nat.zero_le _) hlt)
      rw [ILMMPP.initGraph, this]
      rfl
    · obtain ⟨xsn, hxsn, _⟩ := @addLatentNoise_some g nl xs 0 (by simpa)
      have : _matmul h xs = none := _matmul_none hcols hrows
      simp [ILMMPP.initGraph, hxsn, this]

theorem per_output_eq (x : List ℚ) (y : List (List (Option ℚ))) :
    _per_output x y =
      (List.range (y.headD []).length).map (perOutTriple x y) := rfl

theorem mem_per_output_snd {x : List ℚ} {y : List (List (Option ℚ))}
    {t : List ℚ × Nat × List ℚ} (ht : t ∈ _per_output x y) :
    t.2.1 < (y.headD []).length := by
  rw [per_output_eq] at ht
  rcases List.mem_map.mp ht with ⟨i, hi, rfl⟩
  exact List.mem_range.mp hi

theorem obsList_some {m : ILMMPP} {x : List ℚ} {y : List (List (Option ℚ))}
    (hp : (y.headD []).length ≤ m.ys.length) :
    m.obsList x y = some ((_per_output x y).map fun t =>
      (m.ys.getD t.2.1 (.const 0), t.1, t.2.2)) := by
  apply optMap_congr
  intro t ht
  rw [get?_eq_some_getD (Nat.lt_of_lt_of_le (mem_per_output_snd ht) hp)
    (ProcExpr.const 0)]
  rfl

theorem obsList_none {m : ILMMPP} {x : List ℚ} {y : List (List (Option ℚ))}
    (hp : m.ys.length < (y.headD []).length) : m.obsList x y = none := by
  apply optMap_none
    (List.mem_map.mpr ⟨m.ys.length, List.mem_range.mpr hp, rfl⟩)
  rw [get?_eq_none_of_le (Nat.le_refl _)]
  rfl

theorem flatMap_congr {α β : Type} {l : List α} {f g : α → List β}
    (h : ∀ a ∈ l, f a = g a) : l.flatMap f = l.flatMap g := by
  induction l with
  | nil => rfl
  | cons a l ih =>
      simp only [List.flatMap_cons]
      rw [h a (List.mem_cons_self a l),
        ih fun b hb => h b (List.mem_cons_of_mem a hb)]

theorem flatMap_perm {α β : Type} {l : List α} {f g : α → List β}
    (h : ∀ a ∈ l, (f a).Perm (g a)) : (l.flatMap f).Perm (l.flatMap g) := by
  induction l with
  | nil => exact List.Perm.refl _
  | cons a l ih =>
      simp only [List.flatMap_cons]
      exact (h a (List.mem_cons_self a l)).append
        (ih fun b hb => h b (List.mem_cons_of_mem a hb))

theorem filter_flatMap_of_nil {α β : Type} {l : List α} {pred : α → Bool}
    {f : α → List β} (h : ∀ a ∈ l, pred a = false → f a = []) :
    (l.filter pred).flatMap f = l.flatMap f := by
  induction l with
  | nil => rfl
  | cons a l ih =>
      have ihl := ih fun b hb => h b (List.mem_cons_of_mem a hb)
      cases hp : pred a with
      | true => simp [List.filter_cons, hp, ihl]
      | false =>
          simp [List.filter_cons, hp, ihl,
            h a (List.mem_cons_self a l) hp]

theorem maskSelect_zip_reduceOption {α : Type} (x : List α)
    (yi : List (Option ℚ)) :
    (maskSelect x (yi.map fun v => !v.isNone)).zip
        ((maskSelect yi (yi.map fun v => !v.isNone)).reduceOption) =
      (x.zip yi).filterMap fun av => av.2.map fun w => (av.1, w) := by
  induction x generalizing yi with
  | nil => simp [maskSelect]
  | cons a x ih =>
      cases yi with
      | nil => simp [maskSelect]
      | cons v r =>
          cases v with
          | none => simpa [maskSelect] using ih r
          | some w =>
              simpa [maskSelect, List.reduceOption_cons_of_some]
                using ih r

theorem flattenObs_js (P : Nat → ProcExpr) (x : List ℚ)
    (y : List (List (Option ℚ))) (js : List Nat) :
    flattenObs ((js.map (perOutTriple x y)).map
        fun t => (P t.2.1, t.1, t.2.2)) =
      js.flatMap fun i => (x.zip (colOf y i)).filterMap fun av =>
        av.2.map fun w => (P i, av.1, w) := by
  rw [List.map_map, flattenObs, List.flatMap_map]
  apply flatMap_congr
  intro i _
  show ((maskSelect x ((colOf y i).map fun v => !v.isNone)).zip
      ((maskSelect (colOf y i) ((colOf y i).map fun v => !v.isNone)).reduceOption)).map
      (fun av => (P i, av.1, av.2)) = _
  rw [maskSelect_zip_reduceOption, List.map_filterMap]
  apply List.filterMap_congr
  intro av _
  cases av.2 <;> rfl

theorem flattenObs_per_output (P : Nat → ProcExpr) (x : List ℚ)
    (y : List (List (Option ℚ))) :
    flattenObs ((_per_output x y).map fun t => (P t.2.1, t.1, t.2.2)) =
      (List.range (y.headD []).length).flatMap fun i =>
        (x.zip (colOf y i)).filterMap fun av =>
          av.2.map fun w => (P i, av.1, w) := by
  rw [per_output_eq]
  exact flattenObs_js P x y _

theorem flattenObs_per_output_filter (P : Nat → ProcExpr) (x : List ℚ)
    (y : List (List (Option ℚ))) (i : Nat) :
    flattenObs (((_per_output x y).filter fun t => t.2.1 != i).map
        fun t => (P t.2.1, t.1, t.2.2)) =
      ((List.range (y.headD []).length).filter fun j => j != i).flatMap
        fun j => (x.zip (colOf y j)).filterMap fun av =>
          av.2.map fun w => (P j, av.1, w) := by
  rw [per_output_eq, List.filter_map]
  have hpred : ((fun t : List ℚ × Nat × List ℚ => t.2.1 != i) ∘
      perOutTriple x y) = fun j => j != i := rfl
  rw [hpred]
  exact flattenObs_js P x y _

theorem per_col_perm {x x' : List ℚ} {y y' : List (List (Option ℚ))}
    (hperm : (x.zip y).Perm (x'.zip y')) (P : ProcExpr) (i : Nat) :
    ((x.zip (colOf y i)).filterMap fun av =>
        av.2.map fun w => (P, av.1, w)).Perm
      ((x'.zip (colOf y' i)).filterMap fun av =>
        av.2.map fun w => (P, av.1, w)) := by
  have h1 : x.zip (colOf y i) =
      (x.zip y).map (Prod.map id fun r => r.getD i none) := by
    rw [colOf, List.zip_map_right]
  have h2 : x'.zip (colOf y' i) =
      (x'.zip y').map (Prod.map id fun r => r.getD i none) := by
    rw [colOf, List.zip_map_right]
  rw [h1, h2]
  exact (hperm.map _).filterMap _

theorem maskSelect_fst {α β : Type} (x : List α) (col : List (Option β)) :
    maskSelect x (col.map fun v => !v.isNone) =
      ((x.zip col).filter fun av => av.2.isSome).map Prod.fst := by
  induction x generalizing col with
  | nil => simp [maskSelect]
  | cons a x ih =>
      cases col with
      | nil => simp [maskSelect]
      | cons v r =>
          cases v with
          | none => simpa [maskSelect, List.filter_cons] using ih r
          | some w => simpa [maskSelect, List.filter_cons] using ih r

theorem maskSelect_reduceOption {β : Type} (col : List (Option β)) :
    (maskSelect col (col.map fun v => !v.isNone)).reduceOption =
      col.reduceOption := by
  induction col with
  | nil => rfl
  | cons v r ih =>
      cases v with
      | none => simpa [maskSelect] using ih
      | some w =>
          simpa [maskSelect, List.reduceOption_cons_of_some] using ih

theorem maskSelect_sublist {α : Type} :
    ∀ (l : List α) (mask : List Bool), (maskSelect l mask).Sublist l
  | [], _ => by simp [maskSelect]
  | _ :: _, [] => by simp [maskSelect]
  | a :: l, b :: mask => by
      cases b with
      | true =>
          simpa [maskSelect] using (maskSelect_sublist l mask).cons₂ a
      | false =>
          simpa [maskSelect] using (maskSelect_sublist l mask).cons a

theorem headD_map {α β : Type} {l : List α} (hl : l ≠ []) (f : α → β)
    (d : β) (d' : α) : (l.map f).headD d = f (l.headD d') := by
  cases l with
  | nil => exact absurd rfl hl
  | cons a l => rfl

theorem stackAxis1_length {cols : List (List ℚ)} {n : Nat} (hc : cols ≠ [])
    (hlen : ∀ c ∈ cols, c.length = n) : (stackAxis1 cols).length = n := by
  rw [stackAxis1, List.length_map, List.length_range]
  apply hlen
  cases cols with
  | nil => exact absurd rfl hc
  | cons c cols => exact List.mem_cons_self c cols

theorem stackAxis1_row {cols : List (List ℚ)} {row : List ℚ}
    (hrow : row ∈ stackAxis1 cols) : row.length = cols.length := by
  rcases List.mem_map.mp hrow with ⟨r, _, rfl⟩
  exact List.length_map cols _

theorem stackAxis1_entry {cols : List (List ℚ)} {n r j : Nat}
    (hn : (cols.headD []).length = n) (hr : r < n) (hj : j < cols.length) :
    ((stackAxis1 cols).getD r []).getD j 0 = (cols.getD j []).getD r 0 := by
  rw [stackAxis1, hn, range_map_getD hr, getD_map_lt hj _ _ []]

/-! ### Claim theorems -/

/-- C1, counterexample: the claim says a shape mismatch between `H` and the
kernel list makes construction fail fast; but with two kernels and a
one-by-one mixing matrix (H has 1 column, m = 2 latent processes, and the
latent-noise vector has length 2 = m, so the H shape does not match),
construction succeeds, and the resulting noiseless output processes
mention only the first latent process: the second is silently truncated
away. -/
theorem claim1_counterexample :
    (ILMMPP.initKernels 0 [Kernel.base 0, Kernel.base 1]
        ⟨1, 1, fun _ _ => 1⟩ 0 [0, 0]).isSome = true ∧
    ((ILMMPP.initKernels 0 [Kernel.base 0, Kernel.base 1]
        ⟨1, 1, fun _ _ => 1⟩ 0 [0, 0]).map fun mdl => mdl.fs) =
      some [ProcExpr.add (ProcExpr.const 0)
        (ProcExpr.smul 1 (ProcExpr.gp 0 (Kernel.base 0) 0))] :=
  ⟨rfl, rfl⟩

/-- C1, amended: construction performs no shape validation.  If the
latent-noise vector is shorter than the kernel list, or `H` has more
columns than there are kernels (and at least one row), construction fails
with an index error (not a descriptive shape error); in every other shape
configuration — in particular when `H` has fewer columns than there are
kernels, or the noise vector is longer than the kernel list — construction
succeeds, silently ignoring the extra kernels or noise entries. -/
theorem claim1_theorem (g : Nat) (kernels : List Kernel) (h : Mat) (no : ℚ)
    (nl : List ℚ) :
    ((nl.length < kernels.length ∨ (kernels.length < h.cols ∧ 0 < h.rows)) →
      ILMMPP.initKernels g kernels h no nl = none) ∧
    (h.cols ≤ kernels.length → kernels.length ≤ nl.length →
      (ILMMPP.initKernels g kernels h no nl).isSome = true) := by
  constructor
  · intro hfail
    rw [ILMMPP.initKernels]
    apply initGraph_none
    simpa [mkLatents_length] using hfail
  · intro h1 h2
    obtain ⟨mdl, hm, _⟩ := @initGraph_some g (mkLatents g 0 kernels) h no nl
      (by rw [mkLatents_length]; exact h1)
      (by rw [mkLatents_length]; exact h2)
    rw [ILMMPP.initKernels, hm]
    rfl

/-- C1, witness for the amended theorem: with one kernel, an empty noise
vector and a one-by-two matrix construction fails; with one kernel, a
matching one-by-one matrix and a length-one noise vector it succeeds. -/
theorem claim1_witness :
    ILMMPP.initKernels 0 [Kernel.base 0] ⟨1, 2, fun _ _ => 0⟩ 0 [0] = none ∧
    (ILMMPP.initKernels 0 [Kernel.base 0] ⟨1, 1, fun _ _ => 0⟩ 0 [0]).isSome
      = true :=
  ⟨(claim1_theorem 0 [Kernel.base 0] ⟨1, 2, fun _ _ => 0⟩ 0 [0]).1
      (Or.inr (by constructor <;> decide)),
   (claim1_theorem 0 [Kernel.base 0] ⟨1, 1, fun _ _ => 0⟩ 0 [0]).2
      (by decide) (by decide)⟩

/-- C4: on an `n × p` observation matrix, the per-output helper yields
exactly one triple per output column, in increasing column order: the
`i`-th triple carries the column index `i`, the subset of `x` at the rows
where column `i` is present (characterised independently through
zip-filter, and an order-preserving sublist of `x`), and the present
values of column `i` in row order. -/
theorem claim4_theorem (x : List ℚ) (y : List (List (Option ℚ))) (p : Nat)
    (hw : (y.headD []).length = p) :
    (_per_output x y).length = p ∧
    ∀ i, i < p →
      ((_per_output x y).getD i ([], 0, [])).2.1 = i ∧
      ((_per_output x y).getD i ([], 0, [])).1 =
        ((x.zip (colOf y i)).filter fun av => av.2.isSome).map Prod.fst ∧
      ((_per_output x y).getD i ([], 0, [])).2.2 =
        (colOf y i).reduceOption ∧
      ((_per_output x y).getD i ([], 0, [])).1.Sublist x := by
  constructor
  · rw [per_output_eq, List.length_map, List.length_range, hw]
  · intro i hi
    have hi' : i < (y.headD []).length := hw ▸ hi
    have hget : (_per_output x y).getD i ([], 0, []) = perOutTriple x y i := by
      rw [per_output_eq, range_map_getD hi']
    rw [hget]
    refine ⟨rfl, ?_, ?_, ?_⟩
    · exact maskSelect_fst x (colOf y i)
    · exact maskSelect_reduceOption (colOf y i)
    · exact maskSelect_sublist x _

/-- C4, witness: the per-output helper at a one-point input with a single
present column. -/
theorem claim4_witness :
    (_per_output [1] [[some 2]]).length = 1 ∧
    ∀ i, i < 1 →
      ((_per_output [1] [[some 2]]).getD i ([], 0, [])).2.1 = i ∧
      ((_per_output [1] [[some 2]]).getD i ([], 0, [])).1 =
        (([1].zip (colOf [[some 2]] i)).filter fun av =>
          av.2.isSome).map Prod.fst ∧
      ((_per_output [1] [[some 2]]).getD i ([], 0, [])).2.2 =
        (colOf [[some 2]] i).reduceOption ∧
      ((_per_output [1] [[some 2]]).getD i ([], 0, [])).1.Sublist [1] :=
  claim4_theorem [1] [[some 2]] 1 (by decide)

/-- C5: when `H` has `p` rows and at most as many columns as there are
processes, the linear-combination helper returns `p` processes whose
`j`-th element denotes, under every sample-path assignment, the weighted
sum over `i` of `H[j, i] * processes[i]`; and the variant that omits
zero-weighted terms returns processes with exactly the same denotation,
hence the same distribution. -/
theorem claim5_theorem (h : Mat) (xs : List ProcExpr)
    (hc : h.cols ≤ xs.length) :
    ∃ out outSkip,
      _matmul h xs = some out ∧ out.length = h.rows ∧
      (∀ j, j < h.rows → ∀ base,
        denote base (out.getD j (.const 0)) =
          ((List.range h.cols).map fun i =>
            h.entry j i * denote base (xs.getD i (.const 0))).sum) ∧
      _matmulSkipZero h xs = some outSkip ∧ outSkip.length = h.rows ∧
      ∀ j, j < h.rows → ∀ base,
        denote base (outSkip.getD j (.const 0)) =
          denote base (out.getD j (.const 0)) := by
  obtain ⟨out, hout, hlen, hden⟩ := _matmul_some hc
  obtain ⟨outSkip, hout2, hlen2, hden2⟩ := _matmulSkipZero_some hc
  exact ⟨out, outSkip, hout, hlen, hden, hout2, hlen2,
    fun j hj base => (hden2 j hj base).trans (hden j hj base).symm⟩

/-- C5, witness: the identity one-by-one mixing matrix applied to a single
constant process. -/
theorem claim5_witness :
    ∃ out outSkip,
      _matmul wMat [ProcExpr.const 1] = some out ∧ out.length = wMat.rows ∧
      (∀ j, j < wMat.rows → ∀ base,
        denote base (out.getD j (.const 0)) =
          ((List.range wMat.cols).map fun i =>
            wMat.entry j i *
              denote base ([ProcExpr.const 1].getD i (.const 0))).sum) ∧
      _matmulSkipZero wMat [ProcExpr.const 1] = some outSkip ∧
      outSkip.length = wMat.rows ∧
      ∀ j, j < wMat.rows → ∀ base,
        denote base (outSkip.getD j (.const 0)) =
          denote base (out.getD j (.const 0)) :=
  claim5_theorem wMat [ProcExpr.const 1] (by decide)

/-- C2: for a model whose shapes are consistent (H columns at most the
latent count, latent count at most the noise-vector length, observation
width at most the output count), `condition` returns a new model carrying
over the same graph, the same mixing matrix, the same observation noise
and the same latent-noise vector, whose latent processes are exactly the
posteriors of the parent's latent processes given the joint observation
set built by the per-output missing-data mechanism; the parent, an
immutable value, is untouched. -/
theorem claim2_theorem (m : ILMMPP) (x : List ℚ) (y : List (List (Option ℚ)))
    (hc : m.h.cols ≤ m.xs.length) (hn : m.xs.length ≤ m.noises_latent.length)
    (hp : (y.headD []).length ≤ m.ys.length) :
    ∃ l m', m.obsList x y = some l ∧ m.condition x y = some m' ∧
      m'.graph = m.graph ∧ m'.h = m.h ∧ m'.noise_obs = m.noise_obs ∧
      m'.noises_latent = m.noises_latent ∧
      m'.xs = m.xs.map fun q => ProcExpr.cond q (flattenObs l) := by
  have hobs := @obsList_some m x y hp
  obtain ⟨m', hm', hg, hxs, hh, hno, hnl, _, _⟩ :=
    @initGraph_some m.graph
      (m.xs.map fun q => ProcExpr.cond q
        (flattenObs ((_per_output x y).map fun t =>
          (m.ys.getD t.2.1 (.const 0), t.1, t.2.2))))
      m.h m.noise_obs m.noises_latent
      (by rw [List.length_map]; exact hc)
      (by rw [List.length_map]; exact hn)
  refine ⟨_, m', hobs, ?_, hg, hh, hno, hnl, ?_⟩
  · rw [ILMMPP.condition, hobs]
    exact hm'
  · exact hxs

/-- C2, witness: conditioning the concrete one-output model on a single
observed point. -/
theorem claim2_witness :
    ∃ l m', wModel.obsList [0] [[some 1]] = some l ∧
      wModel.condition [0] [[some 1]] = some m' ∧
      m'.graph = wModel.graph ∧ m'.h = wModel.h ∧
      m'.noise_obs = wModel.noise_obs ∧
      m'.noises_latent = wModel.noises_latent ∧
      m'.xs = wModel.xs.map fun q => ProcExpr.cond q (flattenObs l) :=
  claim2_theorem wModel [0] [[some 1]] (by decide) (by decide) (by decide)

/-- C3: when output column `i` of `y` is entirely missing, `logpdf` does
not error (it returns a value), and that value is exactly the log-density
obtained when column `i` is excluded from consideration entirely, for
every joint log-density capability. -/
theorem claim3_theorem (L : Multiset ObsAtom → ℚ) (m : ILMMPP) (i : Nat)
    (x : List ℚ) (y : List (List (Option ℚ)))
    (hcol : ∀ r ∈ y, r.getD i none = none)
    (hp : (y.headD []).length ≤ m.ys.length) :
    (m.logpdf L x y).isSome = true ∧
    m.logpdf L x y = m.logpdfWithoutColumn L i x y := by
  have hobs := @obsList_some m x y hp
  have hobsF : optMap (fun t => (m.ys.get? t.2.1).map fun P =>
      (P, t.1, t.2.2)) ((_per_output x y).filter fun t => t.2.1 != i) =
      some (((_per_output x y).filter fun t => t.2.1 != i).map fun t =>
        (m.ys.getD t.2.1 (.const 0), t.1, t.2.2)) := by
    apply optMap_congr
    intro t ht
    rw [get?_eq_some_getD
      (Nat.lt_of_lt_of_le (mem_per_output_snd (List.mem_of_mem_filter ht)) hp)
      (ProcExpr.const 0)]
    rfl
  constructor
  · rw [ILMMPP.logpdf, hobs]
    rfl
  · rw [ILMMPP.logpdf, ILMMPP.logpdfWithoutColumn, hobs, hobsF]
    have hfull := flattenObs_per_output
      (fun j => m.ys.getD j (.const 0)) x y
    have hfilt := flattenObs_per_output_filter
      (fun j => m.ys.getD j (.const 0)) x y i
    simp only [Option.map_some']
    rw [hfull, hfilt]
    congr 1
    rw [filter_flatMap_of_nil]
    intro j _ hj
    have hji : j = i := by simpa using hj
    subst hji
    rw [List.filterMap_eq_nil_iff]
    intro av hav
    have : av.2 = none := by
      have h2 : av.2 ∈ colOf y j := (List.of_mem_zip hav).2
      rcases List.mem_map.mp h2 with ⟨r, hr, hrd⟩
      rw [← hrd]
      exact hcol r hr
    rw [this]
    rfl

/-- C3, witness: the concrete one-output model with its single column
entirely missing. -/
theorem claim3_witness :
    ((wModel.logpdf (fun _ => 0) [0] [[none]]).isSome = true) ∧
    wModel.logpdf (fun _ => 0) [0] [[none]] =
      wModel.logpdfWithoutColumn (fun _ => 0) 0 [0] [[none]] :=
  claim3_theorem (fun _ => 0) wModel 0 [0] [[none]] (by decide) (by decide)

/-- C8: jointly permuting the rows of `x` and `y` (same input/output
pairs, reordered) leaves `logpdf` unchanged, exactly (the embedding uses
exact rational arithmetic, so floating-point tolerance is equality), for
every joint log-density capability; the value is defined on both sides. -/
theorem claim8_theorem (L : Multiset ObsAtom → ℚ) (m : ILMMPP)
    (x x' : List ℚ) (y y' : List (List (Option ℚ)))
    (hperm : (x.zip y).Perm (x'.zip y'))
    (hw : (y.headD []).length = (y'.headD []).length)
    (hp : (y.headD []).length ≤ m.ys.length) :
    (m.logpdf L x y).isSome = true ∧
    m.logpdf L x y = m.logpdf L x' y' := by
  have hp' : (y'.headD []).length ≤ m.ys.length := hw ▸ hp
  rw [ILMMPP.logpdf, ILMMPP.logpdf, obsList_some hp, obsList_some hp']
  refine ⟨rfl, ?_⟩
  simp only [Option.map_some']
  rw [flattenObs_per_output (fun j => m.ys.getD j (.const 0)) x y,
    flattenObs_per_output (fun j => m.ys.getD j (.const 0)) x' y', ← hw]
  exact congrArg (fun s => some (L s))
    (Multiset.coe_eq_coe.mpr
      (flatMap_perm fun i _ => per_col_perm hperm _ i))

/-- C8, witness: the identity permutation on a single observed point. -/
theorem claim8_witness :
    ((wModel.logpdf (fun _ => 0) [0] [[some 1]]).isSome = true) ∧
    wModel.logpdf (fun _ => 0) [0] [[some 1]] =
      wModel.logpdf (fun _ => 0) [0] [[some 1]] :=
  claim8_theorem (fun _ => 0) wModel [0] [0] [[some 1]] [[some 1]]
    (List.Perm.refl _) rfl (by decide)

/-- C9: for kernels, H and noises with matching shapes (kernel count and
noise-vector length both equal to H's column count), construction
succeeds, `fs` and `ys` both have length equal to H's row count, the
latent-process count equals H's column count, and every model produced by
`condition` satisfies the same invariant. -/
theorem claim9_theorem (g : Nat) (kernels : List Kernel) (h : Mat) (no : ℚ)
    (nl : List ℚ) (hk : kernels.length = h.cols) (hn : nl.length = h.cols) :
    ∃ mdl, ILMMPP.initKernels g kernels h no nl = some mdl ∧
      mdl.fs.length = h.rows ∧ mdl.ys.length = h.rows ∧
      mdl.xs.length = h.cols ∧
      ∀ x y, (y.headD []).length ≤ mdl.ys.length →
        ∃ mdl', mdl.condition x y = some mdl' ∧
          mdl'.fs.length = h.rows ∧ mdl'.ys.length = h.rows ∧
          mdl'.xs.length = h.cols := by
  obtain ⟨mdl, hm, hg, hxs, hh, hno, hnl, hfs, hys⟩ :=
    @initGraph_some g (mkLatents g 0 kernels) h no nl
      (by rw [mkLatents_length, hk]) (by rw [mkLatents_length, hk, hn])
  have hxlen : mdl.xs.length = h.cols := by
    rw [hxs, mkLatents_length, hk]
  refine ⟨mdl, ?_, hfs, hys, hxlen, ?_⟩
  · rw [ILMMPP.initKernels]
    exact hm
  · intro x y hp
    have hobs := @obsList_some mdl x y hp
    obtain ⟨mdl', hm', _, hxs', hh', _, _, hfs', hys'⟩ :=
      @initGraph_some mdl.graph
        (mdl.xs.map fun q => ProcExpr.cond q
          (flattenObs ((_per_output x y).map fun t =>
            (mdl.ys.getD t.2.1 (.const 0), t.1, t.2.2))))
        mdl.h mdl.noise_obs mdl.noises_latent
        (by rw [List.length_map, hxlen, hh])
        (by rw [List.length_map, hxlen, hnl, hn])
    refine ⟨mdl', ?_, ?_, ?_, ?_⟩
    · rw [ILMMPP.condition, hobs]
      exact hm'
    · rw [hfs', hh]
    · rw [hys', hh]
    · rw [hxs', List.length_map, hxlen]

/-- C9, witness: one kernel, a one-by-one mixing matrix, a length-one
noise vector. -/
theorem claim9_witness :
    ∃ mdl, ILMMPP.initKernels 0 [Kernel.base 0] wMat 0 [0] = some mdl ∧
      mdl.fs.length = wMat.rows ∧ mdl.ys.length = wMat.rows ∧
      mdl.xs.length = wMat.cols ∧
      ∀ x y, (y.headD []).length ≤ mdl.ys.length →
        ∃ mdl', mdl.condition x y = some mdl' ∧
          mdl'.fs.length = wMat.rows ∧ mdl'.ys.length = wMat.rows ∧
          mdl'.xs.length = wMat.cols :=
  claim9_theorem 0 [Kernel.base 0] wMat 0 [0] (by decide) (by decide)

/-- C6: for a model with at least one selected output process, and a
marginal capability returning one value per query point, `predict`
computes per-output marginals of `fs` when `latent` is true and of `ys`
when `latent` is false, and returns three `n × p` matrices (means, lower
95% credible bounds, upper 95% credible bounds) whose column `j` comes
from output process `j`. -/
theorem claim6_theorem (M : ProcExpr → List ℚ → List ℚ × List ℚ × List ℚ)
    (m : ILMMPP) (x : List ℚ) (latent : Bool)
    (hne : (if latent then m.fs else m.ys).isEmpty = false)
    (hM : ∀ q : ProcExpr, (M q x).1.length = x.length ∧
      (M q x).2.1.length = x.length ∧ (M q x).2.2.length = x.length) :
    ∃ mean lower upper,
      m.predict M x latent = some (mean, lower, upper) ∧
      mean.length = x.length ∧ lower.length = x.length ∧
      upper.length = x.length ∧
      (∀ row ∈ mean, row.length = (if latent then m.fs else m.ys).length) ∧
      (∀ row ∈ lower, row.length = (if latent then m.fs else m.ys).length) ∧
      (∀ row ∈ upper, row.length = (if latent then m.fs else m.ys).length) ∧
      ∀ r j, r < x.length → j < (if latent then m.fs else m.ys).length →
        (mean.getD r []).getD j 0 =
          (M ((if latent then m.fs else m.ys).getD j (.const 0)) x).1.getD
            r 0 ∧
        (lower.getD r []).getD j 0 =
          (M ((if latent then m.fs else m.ys).getD j (.const 0)) x).2.1.getD
            r 0 ∧
        (upper.getD r []).getD j 0 =
          (M ((if latent then m.fs else m.ys).getD j (.const 0)) x).2.2.getD
            r 0 := by
  set ps := if latent then m.fs else m.ys with hps
  have hpse : ps ≠ [] := by
    intro hnil
    rw [hnil] at hne
    simp at hne
  have hpred : m.predict M x latent =
      some (stackAxis1 (ps.map fun q => (M q x).1),
        stackAxis1 (ps.map fun q => (M q x).2.1),
        stackAxis1 (ps.map fun q => (M q x).2.2)) := by
    rw [ILMMPP.predict, ← hps, hne]
    simp only [List.map_map, Bool.false_eq_true, if_false]
    exact rfl
  have hcols1 : ∀ c ∈ ps.map fun q => (M q x).1, c.length = x.length := by
    intro c hc
    rcases List.mem_map.mp hc with ⟨q, _, rfl⟩
    exact (hM q).1
  have hcols2 : ∀ c ∈ ps.map fun q => (M q x).2.1, c.length = x.length := by
    intro c hc
    rcases List.mem_map.mp hc with ⟨q, _, rfl⟩
    exact (hM q).2.1
  have hcols3 : ∀ c ∈ ps.map fun q => (M q x).2.2, c.length = x.length := by
    intro c hc
    rcases List.mem_map.mp hc with ⟨q, _, rfl⟩
    exact (hM q).2.2
  have hmne : ∀ (f : ProcExpr → List ℚ), ps.map f ≠ [] := by
    intro f hnil
    exact hpse (List.map_eq_nil_iff.mp hnil)
  have hhead : ∀ (f : ProcExpr → List ℚ), (∀ q, (f q).length = x.length) →
      ((ps.map f).headD []).length = x.length := by
    intro f hf
    rw [headD_map hpse f [] (ProcExpr.const 0)]
    exact hf _
  refine ⟨_, _, _, hpred, ?_, ?_, ?_, ?_, ?_, ?_, ?_⟩
  · exact stackAxis1_length (hmne _) hcols1
  · exact stackAxis1_length (hmne _) hcols2
  · exact stackAxis1_length (hmne _) hcols3
  · intro row hrow
    rw [stackAxis1_row hrow, List.length_map]
  · intro row hrow
    rw [stackAxis1_row hrow, List.length_map]
  · intro row hrow
    rw [stackAxis1_row hrow, List.length_map]
  · intro r j hr hj
    have hj' : j < (ps.map fun q => (M q x).1).length := by
      rw [List.length_map]; exact hj
    have hj2 : j < (ps.map fun q => (M q x).2.1).length := by
      rw [List.length_map]; exact hj
    have hj3 : j < (ps.map fun q => (M q x).2.2).length := by
      rw [List.length_map]; exact hj
    refine ⟨?_, ?_, ?_⟩
    · rw [stackAxis1_entry (hhead _ fun q => (hM q).1) hr hj',
        getD_map_lt hj _ _ (ProcExpr.const 0)]
    · rw [stackAxis1_entry (hhead _ fun q => (hM q).2.1) hr hj2,
        getD_map_lt hj _ _ (ProcExpr.const 0)]
    · rw [stackAxis1_entry (hhead _ fun q => (hM q).2.2) hr hj3,
        getD_map_lt hj _ _ (ProcExpr.const 0)]

/-- C6, witness: the concrete one-output model with a constant marginal
capability at a single query point. -/
theorem claim6_witness :
    ∃ mean lower upper,
      wModel.predict (fun _ _ => ([0], [0], [0])) [5] false =
        some (mean, lower, upper) ∧
      mean.length = [(5 : ℚ)].length ∧ lower.length = [(5 : ℚ)].length ∧
      upper.length = [(5 : ℚ)].length ∧
      (∀ row ∈ mean, row.length =
        (if false then wModel.fs else wModel.ys).length) ∧
      (∀ row ∈ lower, row.length =
        (if false then wModel.fs else wModel.ys).length) ∧
      (∀ row ∈ upper, row.length =
        (if false then wModel.fs else wModel.ys).length) ∧
      ∀ r j, r < [(5 : ℚ)].length →
        j < (if false then wModel.fs else wModel.ys).length →
        (mean.getD r []).getD j 0 =
          ((fun (_ : ProcExpr) (_ : List ℚ) =>
            (([0] : List ℚ), ([0] : List ℚ), ([0] : List ℚ)))
            ((if false then wModel.fs else wModel.ys).getD j (.const 0))
            [5]).1.getD r 0 ∧
        (lower.getD r []).getD j 0 =
          ((fun (_ : ProcExpr) (_ : List ℚ) =>
            (([0] : List ℚ), ([0] : List ℚ), ([0] : List ℚ)))
            ((if false then wModel.fs else wModel.ys).getD j (.const 0))
            [5]).2.1.getD r 0 ∧
        (upper.getD r []).getD j 0 =
          ((fun (_ : ProcExpr) (_ : List ℚ) =>
            (([0] : List ℚ), ([0] : List ℚ), ([0] : List ℚ)))
            ((if false then wModel.fs else wModel.ys).getD j (.const 0))
            [5]).2.2.getD r 0 :=
  claim6_theorem (fun _ _ => ([0], [0], [0])) wModel [5] false (by decide)
    (fun _ => ⟨rfl, rfl, rfl⟩)

/-- C7: for a model with at least one selected output process, `sample`
is exactly one joint call of the graph's joint sampler on the whole list
of selected processes (`fs` if `latent`, else `ys`) evaluated at `x` —
never per-process independent draws — and, when the sampler returns one
length-`n` column per process, the result is an `n × p` matrix whose
column `j` is the jointly drawn sample of output process `j`. -/
theorem claim7_theorem (S : List (ProcExpr × List ℚ) → List (List ℚ))
    (m : ILMMPP) (x : List ℚ) (latent : Bool)
    (hne : (if latent then m.fs else m.ys).isEmpty = false)
    (hlen : (S ((if latent then m.fs else m.ys).map fun q => (q, x))).length
      = (if latent then m.fs else m.ys).length)
    (hcols : ∀ c ∈ S ((if latent then m.fs else m.ys).map fun q => (q, x)),
      c.length = x.length) :
    m.sample S x latent =
      some (stackAxis1
        (S ((if latent then m.fs else m.ys).map fun q => (q, x)))) ∧
    ∃ mat, m.sample S x latent = some mat ∧ mat.length = x.length ∧
      (∀ row ∈ mat, row.length = (if latent then m.fs else m.ys).length) ∧
      ∀ r j, r < x.length → j < (if latent then m.fs else m.ys).length →
        (mat.getD r []).getD j 0 =
          ((S ((if latent then m.fs else m.ys).map fun q =>
            (q, x))).getD j []).getD r 0 := by
  set ps := if latent then m.fs else m.ys with hps
  have hsample : m.sample S x latent =
      some (stackAxis1 (S (ps.map fun q => (q, x)))) := by
    rw [ILMMPP.sample, ← hps, hne]
    simp
  have hSne : S (ps.map fun q => (q, x)) ≠ [] := by
    intro hnil
    rw [hnil] at hlen
    have : ps = [] := List.length_eq_zero.mp hlen.symm
    rw [this] at hne
    simp at hne
  have hhead : ((S (ps.map fun q => (q, x))).headD []).length = x.length := by
    apply hcols
    cases hS : S (ps.map fun q => (q, x)) with
    | nil => exact absurd hS hSne
    | cons c cs => exact List.mem_cons_self c cs
  refine ⟨hsample, _, hsample, ?_, ?_, ?_⟩
  · exact stackAxis1_length hSne hcols
  · intro row hrow
    rw [stackAxis1_row hrow, hlen]
  · intro r j hr hj
    have hj' : j < (S (ps.map fun q => (q, x))).length := by
      rw [hlen]; exact hj
    exact stackAxis1_entry hhead hr hj'

/-- C7, witness: the concrete one-output model with a sampler returning a
single column. -/
theorem claim7_witness :
    wModel.sample (fun l : List (ProcExpr × List ℚ) =>
        l.map fun _ => ([0] : List ℚ)) [5] false =
      some (stackAxis1
        ((fun l : List (ProcExpr × List ℚ) => l.map fun _ => ([0] : List ℚ))
          ((if false then wModel.fs else wModel.ys).map fun q => (q, [5])))) ∧
    ∃ mat, wModel.sample (fun l : List (ProcExpr × List ℚ) =>
        l.map fun _ => ([0] : List ℚ)) [5] false = some mat ∧
      mat.length = [(5 : ℚ)].length ∧
      (∀ row ∈ mat, row.length =
        (if false then wModel.fs else wModel.ys).length) ∧
      ∀ r j, r < [(5 : ℚ)].length →
        j < (if false then wModel.fs else wModel.ys).length →
        (mat.getD r []).getD j 0 =
          (((fun l : List (ProcExpr × List ℚ) =>
            l.map fun _ => ([0] : List ℚ))
            ((if false then wModel.fs else wModel.ys).map fun q =>
              (q, [5]))).getD j []).getD r 0 :=
  claim7_theorem (fun l : List (ProcExpr × List ℚ) =>
      l.map fun _ => ([0] : List ℚ)) wModel [5] false (by decide)
    (by rw [List.length_map, List.length_map]) (by decide)

/-- C10: with the `latent` flag omitted, `predict` and `sample` default to
the noisy output processes `ys`: the default calls compute exactly the
`ys`-based marginal stacking and the `ys`-based joint draw (and fail only
when `ys` is empty), not the `fs`-based ones. -/
theorem claim10_theorem (M : ProcExpr → List ℚ → List ℚ × List ℚ × List ℚ)
    (S : List (ProcExpr × List ℚ) → List (List ℚ)) (m : ILMMPP)
    (x : List ℚ) :
    m.predict M x = m.predict M x false ∧
    m.sample S x = m.sample S x false ∧
    m.predict M x =
      (if m.ys.isEmpty then none
       else some (stackAxis1 (m.ys.map fun q => (M q x).1),
         stackAxis1 (m.ys.map fun q => (M q x).2.1),
         stackAxis1 (m.ys.map fun q => (M q x).2.2))) ∧
    m.sample S x =
      (if m.ys.isEmpty then none
       else some (stackAxis1 (S (m.ys.map fun q => (q, x))))) := by
  refine ⟨rfl, rfl, ?_, ?_⟩
  · rw [ILMMPP.predict]
    cases hys : m.ys.isEmpty with
    | true => simp [hys]
    | false =>
        simp only [hys, Bool.false_eq_true, if_false, List.map_map]
        exact rfl
  · rw [ILMMPP.sample]
    cases hys : m.ys.isEmpty with
    | true => simp [hys]
    | false => simp [hys]
